import Mathlib

/-!
  Verification of the aggregation pipeline of the `web_development` repository.

  The embedded code comes from two JavaScript sources:
  * the `PostsDatabase` class (flat-file JSON store with `upsertPost`,
    `upsertPosts`, `getPosts`, `getPost`, `deleteOldPosts`, `restore`, ...),
  * the aggregator server (`fetchAllPosts` multi-source concatenation and
    deduplication, `fetchSubredditPosts` retry loop with keyword filter).

  Modelling conventions:
  * ISO-8601 timestamp strings are modelled as natural numbers (epoch
    milliseconds); `new Date(s)` comparisons on such strings order exactly as
    the epoch values do.
  * The random surrogate id `Date.now().toString(36) + Math.random()...` is
    modelled as a fresh-id counter `nextId` carried by the store.
  * `new Date().toISOString()` / `Date.now()` reads of the wall clock are
    passed in as explicit `now` parameters.
  * The backing JSON file is the `file` field of the store; `save()` writes
    `posts` into it.
-/

set_option linter.unusedVariables false

namespace Aggregator

/-- Normalized item produced by a source adapter (the object literals built in
`fetchSubredditPosts`, `fetchHackerNews`, `fetchGitHub`, `fetchDevTo`,
`fetchAnthropicBlog`, `getCuratedResources`): the cross-source external
identifier is the `reddit_id` field. -/
structure Item where
  reddit_id : String
  title : String
  content : String
  author : String
  subreddit : String
  upvotes : Int
  num_comments : Int
  created_at : Nat
  url : String
  source : String
deriving Repr, DecidableEq

/-- Stored record shape: the `postData` object built in
`PostsDatabase.upsertPost` (internal surrogate `id` plus the item fields and
the `fetched_at` ingestion timestamp). -/
structure Post where
  id : Nat
  reddit_id : String
  title : String
  content : String
  author : String
  subreddit : String
  upvotes : Int
  num_comments : Int
  created_at : Nat
  fetched_at : Nat
  url : String
deriving Repr, DecidableEq

/-- State of a `PostsDatabase`: the in-memory `this.posts` array, the contents
of the backing JSON file (`this.dbPath`), and the fresh surrogate-id supply
(source: `Date.now().toString(36) + Math.random().toString(36).substr(2)`,
modelled as a counter). -/
@[ext]
structure Store where
  posts : List Post
  file : List Post
  nextId : Nat
deriving Repr, DecidableEq

/-- The `postData` object literal of `upsertPost`: every field is taken from
the incoming item (`content: post.content || ''`, `num_comments:
post.num_comments || 0` are identities here since the fields are total),
except the surrogate `id` and `fetched_at = now`. -/
def mkPostData (item : Item) (id : Nat) (now : Nat) : Post :=
  { id := id
    reddit_id := item.reddit_id
    title := item.title
    content := item.content
    author := item.author
    subreddit := item.subreddit
    upvotes := item.upvotes
    num_comments := item.num_comments
    created_at := item.created_at
    fetched_at := now
    url := item.url }

/-- The `findIndex` + in-place assignment of `upsertPost`: replace the first
record whose `reddit_id` equals the incoming item's, keeping that record's
surrogate `id` (`id: this.posts[index].id`); `none` when no record matches
(`findIndex` returned `-1`). -/
def replaceFirst (item : Item) (now : Nat) : List Post → Option (List Post)
  | [] => none
  | p :: ps =>
    if p.reddit_id = item.reddit_id then
      some (mkPostData item p.id now :: ps)
    else
      (replaceFirst item now ps).map (fun qs => p :: qs)

/-- `PostsDatabase.upsertPost(post)`: overwrite the first record with the same
`reddit_id` (keeping its surrogate id), or push a new record with a fresh
surrogate id; then `save()` (the file becomes the new posts array). -/
def upsertPost (s : Store) (item : Item) (now : Nat) : Store :=
  match replaceFirst item now s.posts with
  | some ps => { posts := ps, file := ps, nextId := s.nextId }
  | none =>
    let ps := s.posts ++ [mkPostData item s.nextId now]
    { posts := ps, file := ps, nextId := s.nextId + 1 }

/-- `PostsDatabase.upsertPosts(posts)`: upsert each item of the batch in
order. Each `upsertPost` call reads the clock; the whole batch is modelled
with a single ingestion timestamp `now`. -/
def upsertPosts (s : Store) (items : List Item) (now : Nat) : Store :=
  items.foldl (fun acc item => upsertPost acc item now) s

/-- `PostsDatabase.getPost(redditId)`: first record with the given
`reddit_id`. -/
def getPost (s : Store) (redditId : String) : Option Post :=
  s.posts.find? (fun p => p.reddit_id == redditId)

/-- The external ids (`reddit_id`) of a list of records, in order. -/
def postKeys (ps : List Post) : List String :=
  ps.map Post.reddit_id

/-- A sequence of `upsertPosts` batches, each with its own ingestion
timestamp, applied in order. -/
def applyBatches (s : Store) (batches : List (List Item × Nat)) : Store :=
  batches.foldl (fun acc b => upsertPosts acc b.1 b.2) s

/-- The store with an empty collection, empty backing file and fresh id
supply (a freshly created `PostsDatabase` over a missing or empty file). -/
def emptyStore : Store :=
  { posts := [], file := [], nextId := 0 }

/-! ### Key bookkeeping lemmas for `upsertPost` -/

theorem replaceFirst_none_iff (item : Item) (now : Nat) (ps : List Post) :
    replaceFirst item now ps = none ↔ item.reddit_id ∉ postKeys ps := by
  induction ps with
  | nil => simp [replaceFirst, postKeys]
  | cons p ps ih =>
    by_cases h : p.reddit_id = item.reddit_id
    · simp [replaceFirst, h, postKeys]
    · rw [replaceFirst, if_neg h, Option.map_eq_none', ih]
      simp only [postKeys, List.map_cons, List.mem_cons]
      constructor
      · intro hn hc
        rcases hc with hc | hc
        · exact h hc.symm
        · exact hn hc
      · intro hn hc
        exact hn (Or.inr hc)

theorem replaceFirst_keys (item : Item) (now : Nat) :
    ∀ {ps qs : List Post}, replaceFirst item now ps = some qs →
      postKeys qs = postKeys ps := by
  intro ps
  induction ps with
  | nil => intro qs h; simp [replaceFirst] at h
  | cons p ps ih =>
    intro qs h
    by_cases hp : p.reddit_id = item.reddit_id
    · rw [replaceFirst, if_pos hp] at h
      cases h
      simp [postKeys, mkPostData, hp]
    · rw [replaceFirst, if_neg hp] at h
      cases hr : replaceFirst item now ps with
      | none => rw [hr] at h; cases h
      | some rs =>
        rw [hr] at h
        cases h
        have h2 := ih hr
        simp only [postKeys, List.map_cons] at h2 ⊢
        rw [h2]

theorem upsertPost_keys (s : Store) (item : Item) (now : Nat) :
    postKeys (upsertPost s item now).posts =
      if item.reddit_id ∈ postKeys s.posts then postKeys s.posts
      else postKeys s.posts ++ [item.reddit_id] := by
  unfold upsertPost
  cases hr : replaceFirst item now s.posts with
  | none =>
    have hm := (replaceFirst_none_iff item now s.posts).mp hr
    rw [if_neg hm]
    simp [postKeys, mkPostData]
  | some ps =>
    have hmem : item.reddit_id ∈ postKeys s.posts := by
      by_contra hmem
      rw [← replaceFirst_none_iff item now s.posts] at hmem
      rw [hmem] at hr
      cases hr
    rw [if_pos hmem]
    exact replaceFirst_keys item now hr

theorem upsertPost_nodup (s : Store) (item : Item) (now : Nat)
    (h : (postKeys s.posts).Nodup) :
    (postKeys (upsertPost s item now).posts).Nodup := by
  rw [upsertPost_keys]
  by_cases hm : item.reddit_id ∈ postKeys s.posts
  · simpa [hm] using h
  · simp only [hm, if_false, List.nodup_append]
    exact ⟨h, List.nodup_singleton _, by simpa using hm⟩

theorem upsertPosts_nodup (items : List Item) (now : Nat) :
    ∀ s : Store, (postKeys s.posts).Nodup →
      (postKeys (upsertPosts s items now).posts).Nodup := by
  induction items with
  | nil => intro s h; simpa [upsertPosts] using h
  | cons item items ih =>
    intro s h
    have h1 := upsertPost_nodup s item now h
    simpa [upsertPosts, List.foldl_cons] using ih (upsertPost s item now) h1

theorem applyBatches_nodup (batches : List (List Item × Nat)) :
    ∀ s : Store, (postKeys s.posts).Nodup →
      (postKeys (applyBatches s batches).posts).Nodup := by
  induction batches with
  | nil => intro s h; simpa [applyBatches] using h
  | cons b bs ih =>
    intro s h
    have h1 := upsertPosts_nodup b.1 b.2 s h
    simpa [applyBatches, List.foldl_cons] using ih (upsertPosts s b.1 b.2) h1

/-- C1: for every sequence of `upsertPosts` batches applied to a store whose
collection has unique `external_id`s (in particular the empty store), the
store never holds two records with the same `external_id` (`reddit_id`),
even when a batch contains duplicate ids or ids colliding across sources. -/
theorem upsertPosts_external_id_unique (s : Store) (batches : List (List Item × Nat))
    (h : (postKeys s.posts).Nodup) :
    (postKeys (applyBatches s batches).posts).Nodup :=
  applyBatches_nodup batches s h

/-- A concrete adapter item used by the witnesses. -/
def sampleItem (rid : String) (sc : Int) : Item :=
  { reddit_id := rid, title := "t", content := "c", author := "a",
    subreddit := "sub", upvotes := sc, num_comments := 0, created_at := 100,
    url := "https://example.org", source := "reddit" }

theorem upsertPosts_external_id_unique_witness :
    (postKeys (applyBatches emptyStore
      [([sampleItem "x" 1, sampleItem "x" 2, sampleItem "gh_42" 3], 5),
       ([sampleItem "gh_42" 9], 7)]).posts).Nodup :=
  upsertPosts_external_id_unique emptyStore _ (by simp [emptyStore, postKeys])

/-! ### Unfolding lemmas for `upsertPosts` -/

theorem upsertPosts_nil (s : Store) (now : Nat) : upsertPosts s [] now = s := rfl

theorem upsertPosts_cons (s : Store) (item : Item) (items : List Item) (now : Nat) :
    upsertPosts s (item :: items) now = upsertPosts (upsertPost s item now) items now := rfl

/-! ### Equality of records up to `fetched_at` -/

/-- Two records agree on every field except possibly `fetched_at`. -/
def SameExceptFetched (a b : Post) : Prop :=
  a.id = b.id ∧ a.reddit_id = b.reddit_id ∧ a.title = b.title ∧
  a.content = b.content ∧ a.author = b.author ∧ a.subreddit = b.subreddit ∧
  a.upvotes = b.upvotes ∧ a.num_comments = b.num_comments ∧
  a.created_at = b.created_at ∧ a.url = b.url

theorem sameExceptFetched_refl (a : Post) : SameExceptFetched a a := by
  simp [SameExceptFetched]

theorem sameExceptFetched_mk (item : Item) (i t t' : Nat) :
    SameExceptFetched (mkPostData item i t) (mkPostData item i t') := by
  simp [SameExceptFetched, mkPostData]

theorem replaceFirst_lockstep (item : Item) (t t' : Nat) :
    ∀ {ps qs : List Post}, List.Forall₂ SameExceptFetched ps qs →
      (replaceFirst item t ps = none ∧ replaceFirst item t' qs = none) ∨
      (∃ ps' qs', replaceFirst item t ps = some ps' ∧
        replaceFirst item t' qs = some qs' ∧
        List.Forall₂ SameExceptFetched ps' qs') := by
  intro ps qs h
  induction h with
  | nil => exact Or.inl ⟨rfl, rfl⟩
  | @cons p q ps qs hpq hrest ih =>
    by_cases hk : p.reddit_id = item.reddit_id
    · right
      have hkq : q.reddit_id = item.reddit_id := by rw [← hpq.2.1]; exact hk
      refine ⟨mkPostData item p.id t :: ps, mkPostData item q.id t' :: qs, ?_, ?_, ?_⟩
      · rw [replaceFirst, if_pos hk]
      · rw [replaceFirst, if_pos hkq]
      · refine List.forall₂_cons.mpr ⟨?_, hrest⟩
        simp [SameExceptFetched, mkPostData, hpq.1]
    · have hkq : ¬q.reddit_id = item.reddit_id := by rw [← hpq.2.1]; exact hk
      rcases ih with ⟨h1, h2⟩ | ⟨ps', qs', h1, h2, h3⟩
      · left
        constructor
        · rw [replaceFirst, if_neg hk, h1]; rfl
        · rw [replaceFirst, if_neg hkq, h2]; rfl
      · right
        refine ⟨p :: ps', q :: qs', ?_, ?_, List.forall₂_cons.mpr ⟨hpq, h3⟩⟩
        · rw [replaceFirst, if_neg hk, h1]; rfl
        · rw [replaceFirst, if_neg hkq, h2]; rfl

theorem upsertPost_lockstep (s s' : Store) (item : Item) (t t' : Nat)
    (hn : s.nextId = s'.nextId)
    (h : List.Forall₂ SameExceptFetched s.posts s'.posts) :
    List.Forall₂ SameExceptFetched (upsertPost s item t).posts
      (upsertPost s' item t').posts ∧
    (upsertPost s item t).nextId = (upsertPost s' item t').nextId := by
  rcases replaceFirst_lockstep item t t' h with ⟨h1, h2⟩ | ⟨ps', qs', h1, h2, h3⟩
  · unfold upsertPost
    rw [h1, h2]
    refine ⟨?_, by simp [hn]⟩
    refine List.rel_append h ?_
    refine List.forall₂_cons.mpr ⟨?_, List.Forall₂.nil⟩
    rw [hn]
    exact sameExceptFetched_mk item s'.nextId t t'
  · unfold upsertPost
    rw [h1, h2]
    exact ⟨h3, hn⟩

theorem upsertPosts_lockstep (items : List Item) (t t' : Nat) :
    ∀ s s' : Store, s.nextId = s'.nextId →
      List.Forall₂ SameExceptFetched s.posts s'.posts →
      List.Forall₂ SameExceptFetched (upsertPosts s items t).posts
        (upsertPosts s' items t').posts := by
  induction items with
  | nil => intro s s' hn h; simpa [upsertPosts] using h
  | cons item items ih =>
    intro s s' hn h
    have h1 := upsertPost_lockstep s s' item t t' hn h
    rw [upsertPosts_cons, upsertPosts_cons]
    exact ih (upsertPost s item t) (upsertPost s' item t') h1.2 h1.1

/-! ### `getPost` against `upsertPost` -/

theorem replaceFirst_find (item : Item) (t : Nat) :
    ∀ {ps qs : List Post}, replaceFirst item t ps = some qs →
      ∃ r, ps.find? (fun p => p.reddit_id == item.reddit_id) = some r ∧
        qs.find? (fun p => p.reddit_id == item.reddit_id) =
          some (mkPostData item r.id t) := by
  intro ps
  induction ps with
  | nil => intro qs h; cases h
  | cons p ps ih =>
    intro qs h
    by_cases hk : p.reddit_id = item.reddit_id
    · rw [replaceFirst, if_pos hk] at h
      cases h
      refine ⟨p, ?_, ?_⟩
      · exact List.find?_cons_of_pos _ (by simp [hk])
      · exact List.find?_cons_of_pos _ (by simp [mkPostData])
    · rw [replaceFirst, if_neg hk] at h
      cases hrr : replaceFirst item t ps with
      | none => rw [hrr] at h; cases h
      | some rs =>
        rw [hrr] at h
        cases h
        obtain ⟨r, h1, h2⟩ := ih hrr
        refine ⟨r, ?_, ?_⟩
        · rw [List.find?_cons_of_neg _ (by simp [hk]), h1]
        · rw [List.find?_cons_of_neg _ (by simp [hk]), h2]

theorem replaceFirst_find_other (item : Item) (t : Nat) (x : String)
    (hx : x ≠ item.reddit_id) :
    ∀ {ps qs : List Post}, replaceFirst item t ps = some qs →
      qs.find? (fun p => p.reddit_id == x) = ps.find? (fun p => p.reddit_id == x) := by
  intro ps
  induction ps with
  | nil => intro qs h; cases h
  | cons p ps ih =>
    intro qs h
    by_cases hk : p.reddit_id = item.reddit_id
    · rw [replaceFirst, if_pos hk] at h
      cases h
      rw [List.find?_cons_of_neg _ (by simp [mkPostData]; exact fun hc => hx hc.symm),
        List.find?_cons_of_neg _ (by simp [hk]; exact fun hc => hx hc.symm)]
    · rw [replaceFirst, if_neg hk] at h
      cases hrr : replaceFirst item t ps with
      | none => rw [hrr] at h; cases h
      | some rs =>
        rw [hrr] at h
        cases h
        by_cases hpx : p.reddit_id = x
        · rw [List.find?_cons_of_pos _ (by simp [hpx]),
            List.find?_cons_of_pos _ (by simp [hpx])]
        · rw [List.find?_cons_of_neg _ (by simp [hpx]),
            List.find?_cons_of_neg _ (by simp [hpx])]
          exact ih hrr

theorem getPost_upsertPost_self (s : Store) (item : Item) (t : Nat) :
    ∃ i, getPost (upsertPost s item t) item.reddit_id =
      some (mkPostData item i t) := by
  unfold upsertPost
  cases hr : replaceFirst item t s.posts with
  | none =>
    refine ⟨s.nextId, ?_⟩
    unfold getPost
    simp only
    rw [List.find?_append]
    have hnone : s.posts.find? (fun p => p.reddit_id == item.reddit_id) = none := by
      rw [List.find?_eq_none]
      intro x hx
      have hm := (replaceFirst_none_iff item t s.posts).mp hr
      simp only [beq_iff_eq]
      intro hcontra
      refine hm ?_
      simp only [postKeys, List.mem_map]
      exact ⟨x, hx, hcontra⟩
    rw [hnone]
    simp [mkPostData]
  | some ps =>
    obtain ⟨r, hfind, hres⟩ := replaceFirst_find item t hr
    exact ⟨r.id, hres⟩

theorem getPost_upsertPost_other (s : Store) (item : Item) (t : Nat) (x : String)
    (hx : x ≠ item.reddit_id) :
    getPost (upsertPost s item t) x = getPost s x := by
  unfold upsertPost
  cases hr : replaceFirst item t s.posts with
  | none =>
    unfold getPost
    simp only
    rw [List.find?_append]
    have hone : [mkPostData item s.nextId t].find? (fun p => p.reddit_id == x) = none := by
      rw [List.find?_eq_none]
      intro y hy
      simp only [List.mem_singleton] at hy
      subst hy
      simp [mkPostData]
      exact fun hc => hx hc.symm
    rw [hone]
    cases s.posts.find? (fun p => p.reddit_id == x) <;> rfl
  | some ps =>
    unfold getPost
    simp only
    exact replaceFirst_find_other item t x hx hr

theorem getPost_upsertPosts_other (t : Nat) (x : String) :
    ∀ (items : List Item) (s : Store), x ∉ items.map Item.reddit_id →
      getPost (upsertPosts s items t) x = getPost s x := by
  intro items
  induction items with
  | nil => intro s _; rfl
  | cons item items ih =>
    intro s hx
    simp only [List.map_cons, List.mem_cons, not_or] at hx
    rw [upsertPosts_cons, ih (upsertPost s item t) hx.2,
      getPost_upsertPost_other s item t x hx.1]

/-! ### `upsertPost` is the identity on an already-absorbed item -/

/-- Whether the backing file currently equals the in-memory collection (the
state immediately after any `save()`). -/
def Saved (s : Store) : Prop := s.file = s.posts

theorem saved_upsertPost (s : Store) (item : Item) (t : Nat) :
    Saved (upsertPost s item t) := by
  unfold upsertPost Saved
  cases replaceFirst item t s.posts <;> rfl

theorem saved_upsertPosts (items : List Item) (t : Nat) :
    ∀ s : Store, Saved s → Saved (upsertPosts s items t) := by
  induction items with
  | nil => intro s h; exact h
  | cons item items ih =>
    intro s h
    rw [upsertPosts_cons]
    exact ih (upsertPost s item t) (saved_upsertPost s item t)

theorem replaceFirst_self_of_find (item : Item) (t : Nat) :
    ∀ {ps : List Post} {r : Post},
      ps.find? (fun p => p.reddit_id == item.reddit_id) = some r →
      mkPostData item r.id t = r →
      replaceFirst item t ps = some ps := by
  intro ps
  induction ps with
  | nil => intro r h _; cases h
  | cons p ps ih =>
    intro r h hfix
    by_cases hk : p.reddit_id = item.reddit_id
    · rw [List.find?_cons_of_pos _ (by simp [hk])] at h
      cases h
      rw [replaceFirst, if_pos hk, hfix]
    · rw [List.find?_cons_of_neg _ (by simp [hk])] at h
      rw [replaceFirst, if_neg hk, ih h hfix]
      rfl

theorem upsertPost_self_of_fixed (s : Store) (item : Item) (t : Nat) (r : Post)
    (hs : Saved s)
    (h : getPost s item.reddit_id = some r)
    (hfix : mkPostData item r.id t = r) :
    upsertPost s item t = s := by
  obtain ⟨posts, file, nid⟩ := s
  unfold getPost at h
  simp only at h
  unfold Saved at hs
  simp only at hs
  subst hs
  unfold upsertPost
  simp only
  rw [replaceFirst_self_of_find item t h hfix]

/-! ### Stores differing only at keys that a batch will rewrite -/

/-- Records agreeing on `id` and `reddit_id`, and equal outright unless their
shared key belongs to `xs`. -/
def RelDiff (xs : List String) (p q : Post) : Prop :=
  p.id = q.id ∧ p.reddit_id = q.reddit_id ∧ (p = q ∨ p.reddit_id ∈ xs)

theorem relDiff_downgrade (ik : String) (xs : List String) :
    ∀ {ps qs : List Post}, List.Forall₂ (RelDiff (ik :: xs)) ps qs →
      ik ∉ postKeys ps → List.Forall₂ (RelDiff xs) ps qs := by
  intro ps qs h
  induction h with
  | nil => intro _; exact List.Forall₂.nil
  | @cons p q ps qs hpq hrest ih =>
    intro hik
    simp only [postKeys, List.map_cons, List.mem_cons, not_or] at hik
    refine List.forall₂_cons.mpr ⟨⟨hpq.1, hpq.2.1, ?_⟩, ih (by simpa [postKeys] using hik.2)⟩
    rcases hpq.2.2 with he | hm
    · exact Or.inl he
    · rcases List.mem_cons.mp hm with hm1 | hm1
      · exact absurd hm1.symm hik.1
      · exact Or.inr hm1

theorem replaceFirst_lockstep_diff (item : Item) (t : Nat) (xs : List String) :
    ∀ {ps qs : List Post}, (postKeys ps).Nodup →
      List.Forall₂ (RelDiff (item.reddit_id :: xs)) ps qs →
      (replaceFirst item t ps = none ∧ replaceFirst item t qs = none ∧
        List.Forall₂ (RelDiff xs) ps qs) ∨
      (∃ ps' qs', replaceFirst item t ps = some ps' ∧
        replaceFirst item t qs = some qs' ∧
        List.Forall₂ (RelDiff xs) ps' qs') := by
  intro ps qs hnd h
  induction h with
  | nil => exact Or.inl ⟨rfl, rfl, List.Forall₂.nil⟩
  | @cons p q ps qs hpq hrest ih =>
    rw [postKeys, List.map_cons, List.nodup_cons] at hnd
    have hndtail : (postKeys ps).Nodup := hnd.2
    by_cases hk : p.reddit_id = item.reddit_id
    · right
      have hkq : q.reddit_id = item.reddit_id := by rw [← hpq.2.1]; exact hk
      have hiknot : item.reddit_id ∉ postKeys ps := by
        rw [← hk]
        exact hnd.1
      refine ⟨mkPostData item p.id t :: ps, mkPostData item q.id t :: qs, ?_, ?_, ?_⟩
      · rw [replaceFirst, if_pos hk]
      · rw [replaceFirst, if_pos hkq]
      · refine List.forall₂_cons.mpr ⟨?_, relDiff_downgrade item.reddit_id xs hrest hiknot⟩
        refine ⟨by simp [mkPostData, hpq.1], by simp [mkPostData], Or.inl ?_⟩
        simp [mkPostData, hpq.1]
    · have hkq : ¬q.reddit_id = item.reddit_id := by rw [← hpq.2.1]; exact hk
      have hhead : RelDiff xs p q := by
        refine ⟨hpq.1, hpq.2.1, ?_⟩
        rcases hpq.2.2 with he | hm
        · exact Or.inl he
        · rcases List.mem_cons.mp hm with hm1 | hm1
          · exact absurd hm1 hk
          · exact Or.inr hm1
      rcases ih hndtail with ⟨h1, h2, h3⟩ | ⟨ps', qs', h1, h2, h3⟩
      · left
        refine ⟨?_, ?_, List.forall₂_cons.mpr ⟨hhead, h3⟩⟩
        · rw [replaceFirst, if_neg hk, h1]; rfl
        · rw [replaceFirst, if_neg hkq, h2]; rfl
      · right
        refine ⟨p :: ps', q :: qs', ?_, ?_, List.forall₂_cons.mpr ⟨hhead, h3⟩⟩
        · rw [replaceFirst, if_neg hk, h1]; rfl
        · rw [replaceFirst, if_neg hkq, h2]; rfl

theorem relDiff_nil_eq : ∀ {ps qs : List Post},
    List.Forall₂ (RelDiff []) ps qs → ps = qs := by
  intro ps qs h
  induction h with
  | nil => rfl
  | @cons p q ps qs hpq hrest ih =>
    rcases hpq.2.2 with he | hm
    · rw [he, ih]
    · exact absurd hm (List.not_mem_nil _)

theorem upsertPosts_diff_eq (t : Nat) :
    ∀ (L : List Item) (s s' : Store),
      s.nextId = s'.nextId → Saved s → Saved s' → (postKeys s.posts).Nodup →
      List.Forall₂ (RelDiff (L.map Item.reddit_id)) s.posts s'.posts →
      upsertPosts s L t = upsertPosts s' L t := by
  intro L
  induction L with
  | nil =>
    intro s s' hn hs hs' hnd h
    have hposts : s.posts = s'.posts := relDiff_nil_eq (by simpa using h)
    obtain ⟨posts, file, nid⟩ := s
    obtain ⟨posts', file', nid'⟩ := s'
    simp only at hposts hn
    unfold Saved at hs hs'
    simp only at hs hs'
    rw [upsertPosts_nil, upsertPosts_nil, hposts, hn, hs, hs', hposts]
  | cons a L ih =>
    intro s s' hn hs hs' hnd h
    rw [upsertPosts_cons, upsertPosts_cons]
    have h' : List.Forall₂ (RelDiff (a.reddit_id :: L.map Item.reddit_id)) s.posts s'.posts := by
      simpa using h
    rcases replaceFirst_lockstep_diff a t (L.map Item.reddit_id) hnd h' with
      ⟨h1, h2, h3⟩ | ⟨ps', qs', h1, h2, h3⟩
    · apply ih
      · unfold upsertPost
        rw [h1, h2]
        simp [hn]
      · exact saved_upsertPost s a t
      · exact saved_upsertPost s' a t
      · exact upsertPost_nodup s a t hnd
      · unfold upsertPost
        rw [h1, h2]
        simp only
        refine List.rel_append h3 ?_
        rw [hn]
        exact List.forall₂_cons.mpr ⟨⟨rfl, rfl, Or.inl rfl⟩, List.Forall₂.nil⟩
    · apply ih
      · unfold upsertPost
        rw [h1, h2]
        exact hn
      · exact saved_upsertPost s a t
      · exact saved_upsertPost s' a t
      · exact upsertPost_nodup s a t hnd
      · unfold upsertPost
        rw [h1, h2]
        exact h3

theorem upsertPost_nextId_of_mem (s : Store) (item : Item) (t : Nat)
    (h : item.reddit_id ∈ postKeys s.posts) :
    (upsertPost s item t).nextId = s.nextId := by
  unfold upsertPost
  cases hr : replaceFirst item t s.posts with
  | none => exact absurd ((replaceFirst_none_iff item t s.posts).mp hr) (by simpa using h)
  | some ps => rfl

theorem replaceFirst_forall₂ (item : Item) (t : Nat) :
    ∀ {ps qs : List Post}, replaceFirst item t ps = some qs →
      List.Forall₂ (fun q p => q.id = p.id ∧ q.reddit_id = p.reddit_id ∧
        (q = p ∨ q.reddit_id = item.reddit_id)) qs ps := by
  intro ps
  induction ps with
  | nil => intro qs h; cases h
  | cons p ps ih =>
    intro qs h
    by_cases hk : p.reddit_id = item.reddit_id
    · rw [replaceFirst, if_pos hk] at h
      cases h
      refine List.forall₂_cons.mpr ⟨⟨rfl, by simp [mkPostData, hk], Or.inr (by simp [mkPostData])⟩, ?_⟩
      exact List.forall₂_same.mpr fun x _ => ⟨rfl, rfl, Or.inl rfl⟩
    · rw [replaceFirst, if_neg hk] at h
      cases hrr : replaceFirst item t ps with
      | none => rw [hrr] at h; cases h
      | some rs =>
        rw [hrr] at h
        cases h
        exact List.forall₂_cons.mpr ⟨⟨rfl, rfl, Or.inl rfl⟩, ih hrr⟩

theorem key_mem_upsertPost (s : Store) (item : Item) (t : Nat) (x : String)
    (hx : x ∈ postKeys s.posts) : x ∈ postKeys (upsertPost s item t).posts := by
  rw [upsertPost_keys]
  by_cases hm : item.reddit_id ∈ postKeys s.posts
  · simpa [hm] using hx
  · simp only [hm, if_false, List.mem_append]
    exact Or.inl hx

theorem key_mem_upsertPosts (t : Nat) :
    ∀ (items : List Item) (s : Store) (x : String), x ∈ postKeys s.posts →
      x ∈ postKeys (upsertPosts s items t).posts := by
  intro items
  induction items with
  | nil => intro s x hx; exact hx
  | cons item items ih =>
    intro s x hx
    rw [upsertPosts_cons]
    exact ih (upsertPost s item t) x (key_mem_upsertPost s item t x hx)

theorem key_self_mem_upsertPost (s : Store) (item : Item) (t : Nat) :
    item.reddit_id ∈ postKeys (upsertPost s item t).posts := by
  rw [upsertPost_keys]
  by_cases hm : item.reddit_id ∈ postKeys s.posts
  · rw [if_pos hm]
    exact hm
  · simp [hm]

/-! ### Re-running an identical batch -/

theorem upsertPost_then_batch (t : Nat) (a : Item) (L : List Item) (M : Store)
    (hndM : (postKeys M.posts).Nodup) (hsavedM : Saved M)
    (hmemM : a.reddit_id ∈ postKeys M.posts)
    (hk : a.reddit_id ∈ L.map Item.reddit_id) :
    upsertPosts (upsertPost M a t) L t = upsertPosts M L t := by
  apply upsertPosts_diff_eq t L
  · exact upsertPost_nextId_of_mem M a t hmemM
  · exact saved_upsertPost M a t
  · exact hsavedM
  · have hkeq := upsertPost_keys M a t
    rw [if_pos hmemM] at hkeq
    rw [hkeq]
    exact hndM
  · cases hr : replaceFirst a t M.posts with
    | none =>
      exact absurd ((replaceFirst_none_iff a t _).mp hr) (by simpa using hmemM)
    | some ps =>
      have hrel := replaceFirst_forall₂ a t hr
      unfold upsertPost
      rw [hr]
      simp only
      refine hrel.imp fun q p hqp => ⟨hqp.1, hqp.2.1, ?_⟩
      rcases hqp.2.2 with he | hkey
      · exact Or.inl he
      · exact Or.inr (by rw [hkey]; exact hk)

theorem upsertPosts_absorb (t : Nat) :
    ∀ (L : List Item) (s : Store), (postKeys s.posts).Nodup →
      upsertPosts (upsertPosts s L t) L t = upsertPosts s L t := by
  intro L
  induction L with
  | nil => intro s _; rfl
  | cons a L ih =>
    intro s hnd
    have hnd0 : (postKeys (upsertPost s a t).posts).Nodup := upsertPost_nodup s a t hnd
    have hndM : (postKeys (upsertPosts (upsertPost s a t) L t).posts).Nodup :=
      upsertPosts_nodup L t (upsertPost s a t) hnd0
    have hsavedM : Saved (upsertPosts (upsertPost s a t) L t) :=
      saved_upsertPosts L t (upsertPost s a t) (saved_upsertPost s a t)
    show upsertPosts
      (upsertPost (upsertPosts (upsertPost s a t) L t) a t) L t =
      upsertPosts (upsertPost s a t) L t
    by_cases hk : a.reddit_id ∈ L.map Item.reddit_id
    · have hmemM : a.reddit_id ∈ postKeys (upsertPosts (upsertPost s a t) L t).posts :=
        key_mem_upsertPosts t L (upsertPost s a t) a.reddit_id
          (key_self_mem_upsertPost s a t)
      rw [upsertPost_then_batch t a L (upsertPosts (upsertPost s a t) L t)
        hndM hsavedM hmemM hk]
      exact ih (upsertPost s a t) hnd0
    · have hfix : upsertPost (upsertPosts (upsertPost s a t) L t) a t =
          upsertPosts (upsertPost s a t) L t := by
        obtain ⟨i, hget⟩ := getPost_upsertPost_self s a t
        have hgetM : getPost (upsertPosts (upsertPost s a t) L t) a.reddit_id =
            some (mkPostData a i t) := by
          rw [getPost_upsertPosts_other t a.reddit_id L (upsertPost s a t) hk]
          exact hget
        exact upsertPost_self_of_fixed _ a t (mkPostData a i t) hsavedM hgetM rfl
      rw [hfix, ih (upsertPost s a t) hnd0]

/-! ### Which records carry the batch timestamp -/

theorem getPost_upsertPosts_mem (t : Nat) :
    ∀ (L : List Item) (s : Store) (x : String), x ∈ L.map Item.reddit_id →
      ∃ r, getPost (upsertPosts s L t) x = some r ∧ r.fetched_at = t := by
  intro L
  induction L with
  | nil => intro s x hx; exact absurd hx (List.not_mem_nil _)
  | cons a L ih =>
    intro s x hx
    rw [upsertPosts_cons]
    by_cases hxL : x ∈ L.map Item.reddit_id
    · exact ih (upsertPost s a t) x hxL
    · have hxa : x = a.reddit_id := by
        rw [List.map_cons, List.mem_cons] at hx
        rcases hx with h1 | h1
        · exact h1
        · exact absurd h1 hxL
      subst hxa
      rw [getPost_upsertPosts_other t a.reddit_id L (upsertPost s a t) hxL]
      obtain ⟨i, hget⟩ := getPost_upsertPost_self s a t
      exact ⟨mkPostData a i t, hget, rfl⟩

theorem find?_key_of_mem : ∀ {ps : List Post}, (postKeys ps).Nodup →
    ∀ {p : Post}, p ∈ ps →
      ps.find? (fun q => q.reddit_id == p.reddit_id) = some p := by
  intro ps
  induction ps with
  | nil => intro _ p hp; exact absurd hp (List.not_mem_nil _)
  | cons q ps ih =>
    intro hnd p hp
    rw [postKeys, List.map_cons, List.nodup_cons] at hnd
    rcases List.mem_cons.mp hp with h1 | h1
    · subst h1
      exact List.find?_cons_of_pos _ (by simp)
    · have hne : ¬q.reddit_id = p.reddit_id := by
        intro hc
        refine hnd.1 ?_
        rw [hc]
        exact List.mem_map.mpr ⟨p, h1, rfl⟩
      rw [List.find?_cons_of_neg _ (by simp [hne])]
      exact ih hnd.2 h1

/-- C2: running `upsertPosts` twice in succession with an identical item list
leaves the store's record count unchanged and every stored record's fields
unchanged except `fetched_at`; records matching the batch carry the second
ingestion time. -/
theorem upsertPosts_idempotent (s : Store) (items : List Item) (t1 t2 : Nat)
    (h : (postKeys s.posts).Nodup) :
    (upsertPosts (upsertPosts s items t1) items t2).posts.length =
        (upsertPosts s items t1).posts.length ∧
    List.Forall₂ SameExceptFetched
      (upsertPosts (upsertPosts s items t1) items t2).posts
      (upsertPosts s items t1).posts ∧
    (∀ r ∈ (upsertPosts (upsertPosts s items t1) items t2).posts,
      r.reddit_id ∈ items.map Item.reddit_id → r.fetched_at = t2) := by
  have hnd1 : (postKeys (upsertPosts s items t1).posts).Nodup :=
    upsertPosts_nodup items t1 s h
  have habs : upsertPosts (upsertPosts s items t1) items t1 = upsertPosts s items t1 :=
    upsertPosts_absorb t1 items s h
  have hsef : List.Forall₂ SameExceptFetched
      (upsertPosts (upsertPosts s items t1) items t2).posts
      (upsertPosts (upsertPosts s items t1) items t1).posts :=
    upsertPosts_lockstep items t2 t1 _ _ rfl
      (List.forall₂_same.mpr fun x _ => sameExceptFetched_refl x)
  rw [habs] at hsef
  refine ⟨hsef.length_eq, hsef, ?_⟩
  intro r hr hrmem
  have hnd2 : (postKeys (upsertPosts (upsertPosts s items t1) items t2).posts).Nodup :=
    upsertPosts_nodup items t2 _ hnd1
  obtain ⟨r', hget, hf⟩ := getPost_upsertPosts_mem t2 items (upsertPosts s items t1)
    r.reddit_id hrmem
  have hgr : getPost (upsertPosts (upsertPosts s items t1) items t2) r.reddit_id =
      some r := find?_key_of_mem hnd2 hr
  rw [hgr] at hget
  cases hget
  exact hf

theorem upsertPosts_idempotent_witness :
    (upsertPosts (upsertPosts emptyStore [sampleItem "x" 1] 3) [sampleItem "x" 1] 9).posts.length =
        (upsertPosts emptyStore [sampleItem "x" 1] 3).posts.length ∧
    List.Forall₂ SameExceptFetched
      (upsertPosts (upsertPosts emptyStore [sampleItem "x" 1] 3) [sampleItem "x" 1] 9).posts
      (upsertPosts emptyStore [sampleItem "x" 1] 3).posts ∧
    (∀ r ∈ (upsertPosts (upsertPosts emptyStore [sampleItem "x" 1] 3) [sampleItem "x" 1] 9).posts,
      r.reddit_id ∈ [sampleItem "x" 1].map Item.reddit_id → r.fetched_at = 9) :=
  upsertPosts_idempotent emptyStore [sampleItem "x" 1] 3 9 (by simp [emptyStore, postKeys])

/-- C3: upserting an item whose `external_id` already exists keeps the
original surrogate id, stamps `fetched_at` with the current ingestion time,
and overwrites `created_at` with the incoming item's value. -/
theorem upsertPost_existing_fields (s : Store) (item : Item) (t : Nat) (r : Post)
    (h : getPost s item.reddit_id = some r) :
    getPost (upsertPost s item t) item.reddit_id = some (mkPostData item r.id t) ∧
    (mkPostData item r.id t).id = r.id ∧
    (mkPostData item r.id t).fetched_at = t ∧
    (mkPostData item r.id t).created_at = item.created_at := by
  have hmem : item.reddit_id ∈ postKeys s.posts := by
    have h1 := List.mem_of_find?_eq_some h
    have h2 := List.find?_some h
    simp only [beq_iff_eq] at h2
    simp only [postKeys, List.mem_map]
    exact ⟨r, h1, h2⟩
  cases hr : replaceFirst item t s.posts with
  | none =>
    exact absurd ((replaceFirst_none_iff item t s.posts).mp hr) (by simpa using hmem)
  | some ps =>
    obtain ⟨r0, hf0, hres⟩ := replaceFirst_find item t hr
    unfold getPost at h
    rw [h] at hf0
    cases hf0
    refine ⟨?_, rfl, rfl, rfl⟩
    unfold upsertPost getPost
    rw [hr]
    exact hres

/-! ### Substring matching (JavaScript `String.prototype.includes`) -/

/-- JavaScript `hay.includes(pat)` over lists of characters: some contiguous
slice of `hay` equals `pat`. -/
def containsSeq : List Char → List Char → Bool
  | [], pat => pat.isEmpty
  | c :: t, pat => pat.isPrefixOf (c :: t) || containsSeq t pat

/-- `hay.includes(pat)` on strings. -/
def strIncludes (hay pat : String) : Bool :=
  containsSeq hay.toList pat.toList

/-- JavaScript `toLowerCase()`: per-character lowering (the code only feeds
it ASCII identifiers and English text). -/
def strToLower (s : String) : String :=
  String.mk (s.data.map Char.toLower)

theorem isPrefixOf_iff_exists (pat hay : List Char) :
    pat.isPrefixOf hay = true ↔ ∃ r, hay = pat ++ r := by
  rw [List.isPrefixOf_iff_prefix]
  constructor
  · rintro ⟨r, hr⟩
    exact ⟨r, hr.symm⟩
  · rintro ⟨r, hr⟩
    exact ⟨r, hr.symm⟩

theorem containsSeq_iff (pat : List Char) :
    ∀ hay : List Char, containsSeq hay pat = true ↔ ∃ l r, hay = l ++ pat ++ r := by
  intro hay
  induction hay with
  | nil =>
    simp only [containsSeq, List.isEmpty_iff]
    constructor
    · intro h
      exact ⟨[], [], by simp [h]⟩
    · rintro ⟨l, r, hr⟩
      rcases List.append_eq_nil.mp (List.append_eq_nil.mp hr.symm).1 with ⟨_, h2⟩
      exact h2
  | cons c t ih =>
    simp only [containsSeq, Bool.or_eq_true, ih, isPrefixOf_iff_exists]
    constructor
    · rintro (⟨r, hr⟩ | ⟨l, r, hr⟩)
      · exact ⟨[], r, by simpa using hr⟩
      · exact ⟨c :: l, r, by simp [hr]⟩
    · rintro ⟨l, r, hr⟩
      cases l with
      | nil =>
        left
        exact ⟨r, by simpa using hr⟩
      | cons x l =>
        right
        simp only [List.cons_append, List.cons.injEq] at hr
        exact ⟨l, r, hr.2⟩

/-! ### `getPosts`: filtered, sorted, paginated read -/

/-- Query options of `PostsDatabase.getPosts`. The `daysBack` retention
window is represented by the explicit `cutoff` parameter of `getPosts`
below: the source computes `cutoffDate` as the current date minus `daysBack`
days and compares `new Date(p.created_at) >= cutoffDate`. -/
structure GetPostsOptions where
  search : String := ""
  subreddit : String := ""
  sortBy : String := "created_at"
  sortOrder : String := "desc"
  page : Nat := 1
  limit : Nat := 20
  minUpvotes : Int := 0
deriving Repr, DecidableEq

/-- The pagination metadata object returned by `getPosts`. -/
structure Pagination where
  page : Nat
  limit : Nat
  total : Nat
  totalPages : Nat
  hasNext : Bool
  hasPrev : Bool
deriving Repr, DecidableEq

/-- The `{ posts, pagination }` object returned by `getPosts`. -/
structure GetPostsResult where
  posts : List Post
  pagination : Pagination
deriving Repr, DecidableEq

/-- The four-stage filter pipeline of `getPosts`, in source order: retention
window, then minimum upvotes (only when `minUpvotes > 0`), then subreddit
substring (only when `subreddit` is nonempty), then free-text search over
title/author/content (only when `search` is nonempty; the `p.content &&`
guard is the emptiness test on `content`). -/
def filteredPosts (posts : List Post) (o : GetPostsOptions) (cutoff : Nat) : List Post :=
  let f1 := posts.filter (fun p => decide (cutoff ≤ p.created_at))
  let f2 := if 0 < o.minUpvotes then
      f1.filter (fun p => decide (o.minUpvotes ≤ p.upvotes)) else f1
  let f3 := if o.subreddit ≠ "" then
      f2.filter (fun p => strIncludes (strToLower p.subreddit) (strToLower o.subreddit)) else f2
  let f4 := if o.search ≠ "" then
      f3.filter (fun p =>
        strIncludes (strToLower p.title) (strToLower o.search) ||
        strIncludes (strToLower p.author) (strToLower o.search) ||
        (!p.content.isEmpty && strIncludes (strToLower p.content) (strToLower o.search))) else f3
  f4

/-- Sort key selected by the `switch (sortBy)` of `getPosts`: `upvotes`,
`num_comments`, or (default) the `created_at` timestamp. -/
def sortKey (sortBy : String) (p : Post) : Int :=
  if sortBy = "upvotes" then p.upvotes
  else if sortBy = "num_comments" then p.num_comments
  else (p.created_at : Int)

/-- The comparator of `getPosts` (`valB - valA` for `desc`, `valA - valB`
otherwise) expressed as the order relation of the stable sort it drives. -/
def sortLe (sortBy sortOrder : String) (a b : Post) : Bool :=
  if sortOrder = "desc" then decide (sortKey sortBy b ≤ sortKey sortBy a)
  else decide (sortKey sortBy a ≤ sortKey sortBy b)

/-- `Math.ceil(total / limit)` for a positive `limit`. -/
def ceilDiv (a b : Nat) : Nat := (a + b - 1) / b

/-- `PostsDatabase.getPosts(options)`: filter, stable-sort, paginate with
`slice(offset, offset + limit)`, and return the page plus pagination
metadata. `cutoff` is the epoch value of the source's `cutoffDate`. -/
def getPosts (s : Store) (o : GetPostsOptions) (cutoff : Nat) : GetPostsResult :=
  let filtered := filteredPosts s.posts o cutoff
  let sorted := filtered.mergeSort (sortLe o.sortBy o.sortOrder)
  let total := sorted.length
  let totalPages := ceilDiv total o.limit
  let offset := (o.page - 1) * o.limit
  let paginated := (sorted.drop offset).take o.limit
  { posts := paginated
    pagination :=
      { page := o.page
        limit := o.limit
        total := total
        totalPages := totalPages
        hasNext := decide (o.page < totalPages)
        hasPrev := decide (1 < o.page) } }

/-- `PostsDatabase.deleteOldPosts(daysBack)`: keep only records whose
`created_at` is within the window, `save()` when at least one record was
removed, and return the number of deletions. -/
def deleteOldPosts (s : Store) (cutoff : Nat) : Store × Nat :=
  let remaining := s.posts.filter (fun p => decide (cutoff ≤ p.created_at))
  let deleted := s.posts.length - remaining.length
  if 0 < deleted then
    ({ posts := remaining, file := remaining, nextId := s.nextId }, deleted)
  else
    ({ posts := remaining, file := s.file, nextId := s.nextId }, deleted)

theorem filteredPosts_sublist (posts : List Post) (o : GetPostsOptions) (cutoff : Nat) :
    (filteredPosts posts o cutoff).Sublist
      (posts.filter (fun p => decide (cutoff ≤ p.created_at))) := by
  simp only [filteredPosts]
  have step : ∀ (l : List Post) (b : Prop) [Decidable b] (q : Post → Bool),
      (if b then l.filter q else l).Sublist l := by
    intro l b hb q
    by_cases h : b
    · rw [if_pos h]
      exact List.filter_sublist l
    · rw [if_neg h]
  exact List.Sublist.trans (step _ _ _) (List.Sublist.trans (step _ _ _) (step _ _ _))

theorem mem_filteredPosts_created (posts : List Post) (o : GetPostsOptions)
    (cutoff : Nat) (p : Post) (hp : p ∈ filteredPosts posts o cutoff) :
    cutoff ≤ p.created_at := by
  have h1 := (filteredPosts_sublist posts o cutoff).mem hp
  have h2 := (List.mem_filter.mp h1).2
  simpa using h2

theorem ceilDiv_spec (N L : Nat) (hL : 1 ≤ L) : N ≤ ceilDiv N L * L := by
  unfold ceilDiv
  rw [Nat.mul_comm]
  have h1 := Nat.div_add_mod (N + L - 1) L
  have h2 : (N + L - 1) % L < L := Nat.mod_lt _ hL
  generalize hA : L * ((N + L - 1) / L) = A at h1
  generalize hm : (N + L - 1) % L = m at h1 h2
  omega

/-- C5: items whose `created_at` is older than the retention cutoff are
excluded from `getPosts` results; `deleteOldPosts` removes exactly the
out-of-window items from the collection and persists the reduced collection
to the backing file when at least one item was removed. -/
theorem retention_correct (s : Store) (o : GetPostsOptions) (cutoff : Nat) :
    (∀ p ∈ (getPosts s o cutoff).posts, cutoff ≤ p.created_at) ∧
    (deleteOldPosts s cutoff).1.posts =
      s.posts.filter (fun p => decide (cutoff ≤ p.created_at)) ∧
    (∀ p ∈ s.posts,
      (p ∈ (deleteOldPosts s cutoff).1.posts ↔ cutoff ≤ p.created_at)) ∧
    (0 < (deleteOldPosts s cutoff).2 →
      (deleteOldPosts s cutoff).1.file =
        s.posts.filter (fun p => decide (cutoff ≤ p.created_at))) := by
  refine ⟨?_, ?_, ?_, ?_⟩
  · intro p hp
    have hp1 : p ∈ (filteredPosts s.posts o cutoff).mergeSort
        (sortLe o.sortBy o.sortOrder) :=
      List.mem_of_mem_drop (List.mem_of_mem_take hp)
    have hp2 : p ∈ filteredPosts s.posts o cutoff :=
      (List.mergeSort_perm _ _).mem_iff.mp hp1
    exact mem_filteredPosts_created s.posts o cutoff p hp2
  · unfold deleteOldPosts
    by_cases h : 0 < s.posts.length -
        (s.posts.filter (fun p => decide (cutoff ≤ p.created_at))).length
    · rw [if_pos h]
    · rw [if_neg h]
  · intro p hp
    have hposts : (deleteOldPosts s cutoff).1.posts =
        s.posts.filter (fun q => decide (cutoff ≤ q.created_at)) := by
      unfold deleteOldPosts
      by_cases h : 0 < s.posts.length -
          (s.posts.filter (fun q => decide (cutoff ≤ q.created_at))).length
      · rw [if_pos h]
      · rw [if_neg h]
    rw [hposts, List.mem_filter]
    constructor
    · intro h
      simpa using h.2
    · intro h
      exact ⟨hp, by simpa using h⟩
  · intro h
    unfold deleteOldPosts at h ⊢
    by_cases hd : 0 < s.posts.length -
        (s.posts.filter (fun p => decide (cutoff ≤ p.created_at))).length
    · rw [if_pos hd]
    · rw [if_neg hd] at h
      exact absurd h hd

/-- C6: the pagination metadata of `getPosts` satisfies
`totalPages = ceil(N / limit)` for the filtered size `N`, `hasNext` holds
exactly when `page < totalPages`, `hasPrev` exactly when `page > 1`, and a
page beyond the last yields an empty slice. -/
theorem pagination_correct (s : Store) (o : GetPostsOptions) (cutoff : Nat)
    (hpage : 1 ≤ o.page) (hlimit : 1 ≤ o.limit) :
    (getPosts s o cutoff).pagination.totalPages =
      ceilDiv (filteredPosts s.posts o cutoff).length o.limit ∧
    ((getPosts s o cutoff).pagination.hasNext = true ↔
      o.page < (getPosts s o cutoff).pagination.totalPages) ∧
    ((getPosts s o cutoff).pagination.hasPrev = true ↔ 1 < o.page) ∧
    ((getPosts s o cutoff).pagination.totalPages < o.page →
      (getPosts s o cutoff).posts = []) := by
  have hlen : ((filteredPosts s.posts o cutoff).mergeSort
      (sortLe o.sortBy o.sortOrder)).length =
      (filteredPosts s.posts o cutoff).length :=
    (List.mergeSort_perm _ _).length_eq
  refine ⟨?_, ?_, ?_, ?_⟩
  · show ceilDiv ((filteredPosts s.posts o cutoff).mergeSort
      (sortLe o.sortBy o.sortOrder)).length o.limit =
      ceilDiv (filteredPosts s.posts o cutoff).length o.limit
    rw [hlen]
  · show decide (o.page < ceilDiv ((filteredPosts s.posts o cutoff).mergeSort
      (sortLe o.sortBy o.sortOrder)).length o.limit) = true ↔
      o.page < ceilDiv ((filteredPosts s.posts o cutoff).mergeSort
      (sortLe o.sortBy o.sortOrder)).length o.limit
    exact decide_eq_true_iff
  · show decide (1 < o.page) = true ↔ 1 < o.page
    exact decide_eq_true_iff
  · intro hb
    have hb' : ceilDiv ((filteredPosts s.posts o cutoff).mergeSort
        (sortLe o.sortBy o.sortOrder)).length o.limit < o.page := hb
    rw [hlen] at hb'
    have hspec := ceilDiv_spec (filteredPosts s.posts o cutoff).length o.limit hlimit
    have hstep : ceilDiv (filteredPosts s.posts o cutoff).length o.limit ≤ o.page - 1 := by
      omega
    have hN : (filteredPosts s.posts o cutoff).length ≤ (o.page - 1) * o.limit :=
      hspec.trans (Nat.mul_le_mul_right _ hstep)
    show (((filteredPosts s.posts o cutoff).mergeSort
      (sortLe o.sortBy o.sortOrder)).drop ((o.page - 1) * o.limit)).take o.limit = []
    rw [List.drop_eq_nil_of_le (by rw [hlen]; exact hN), List.take_nil]

/-! ### `restore` -/

/-- `PostsDatabase.restore(backupFile)`. The file system is modelled as a
map from a path to `none` (file does not exist: the internal `throw` is
caught and `false` returned with the state unchanged), `some none` (file
exists but `JSON.parse` throws: also caught, state unchanged), or
`some (some ps)` (file exists and parses: the in-memory collection is
replaced wholesale and `save()`d). -/
def restore (s : Store) (fs : String → Option (Option (List Post)))
    (path : String) : Store × Bool :=
  match fs path with
  | none => (s, false)
  | some none => (s, false)
  | some (some ps) => ({ posts := ps, file := ps, nextId := s.nextId }, true)

/-- C9: `restore` fails (returns the failure flag after catching the Store
error) when the snapshot file does not exist, leaving the collection
unchanged; when the snapshot exists and parses it replaces the in-memory
collection wholesale and persists it to the backing file. -/
theorem restore_spec (s : Store) (fs : String → Option (Option (List Post)))
    (path : String) :
    (fs path = none → restore s fs path = (s, false)) ∧
    (∀ ps, fs path = some (some ps) →
      restore s fs path = ({ posts := ps, file := ps, nextId := s.nextId }, true)) := by
  constructor
  · intro h
    unfold restore
    rw [h]
  · intro ps h
    unfold restore
    rw [h]

theorem restore_spec_witness :
    restore emptyStore (fun _ => none) "backups/posts-backup-2026-10-11.json" =
      (emptyStore, false) :=
  (restore_spec emptyStore (fun _ => none) "backups/posts-backup-2026-10-11.json").1 rfl

theorem upsertPost_existing_fields_witness :
    getPost (upsertPost (upsertPost emptyStore (sampleItem "gh_42" 1) 3)
        (sampleItem "gh_42" 2) 9) "gh_42" =
      some (mkPostData (sampleItem "gh_42" 2)
        (mkPostData (sampleItem "gh_42" 1) 0 3).id 9) ∧
    (mkPostData (sampleItem "gh_42" 2) (mkPostData (sampleItem "gh_42" 1) 0 3).id 9).id =
      (mkPostData (sampleItem "gh_42" 1) 0 3).id ∧
    (mkPostData (sampleItem "gh_42" 2) (mkPostData (sampleItem "gh_42" 1) 0 3).id 9).fetched_at = 9 ∧
    (mkPostData (sampleItem "gh_42" 2) (mkPostData (sampleItem "gh_42" 1) 0 3).id 9).created_at =
      (sampleItem "gh_42" 2).created_at :=
  upsertPost_existing_fields (upsertPost emptyStore (sampleItem "gh_42" 1) 3)
    (sampleItem "gh_42" 2) 9 (mkPostData (sampleItem "gh_42" 1) 0 3) (by decide)

/-- A concrete stored record used by the witnesses. -/
def samplePost (rid : String) (created : Nat) : Post :=
  { id := 0, reddit_id := rid, title := "Title", content := "body",
    author := "auth", subreddit := "ClaudeAI", upvotes := 3, num_comments := 1,
    created_at := created, fetched_at := 7, url := "https://example.org" }

/-- A concrete two-record store used by the witnesses. -/
def sampleStore : Store :=
  { posts := [samplePost "a" 10, samplePost "b" 99]
    file := [samplePost "a" 10, samplePost "b" 99]
    nextId := 2 }

theorem retention_correct_witness :
    (∀ p ∈ (getPosts sampleStore {} 50).posts, 50 ≤ p.created_at) ∧
    (deleteOldPosts sampleStore 50).1.posts =
      sampleStore.posts.filter (fun p => decide (50 ≤ p.created_at)) ∧
    (∀ p ∈ sampleStore.posts,
      (p ∈ (deleteOldPosts sampleStore 50).1.posts ↔ 50 ≤ p.created_at)) ∧
    (0 < (deleteOldPosts sampleStore 50).2 →
      (deleteOldPosts sampleStore 50).1.file =
        sampleStore.posts.filter (fun p => decide (50 ≤ p.created_at))) :=
  retention_correct sampleStore {} 50

theorem pagination_correct_witness :
    (getPosts sampleStore { page := 3, limit := 1 } 0).pagination.totalPages =
      ceilDiv (filteredPosts sampleStore.posts { page := 3, limit := 1 } 0).length
        ({ page := 3, limit := 1 } : GetPostsOptions).limit ∧
    ((getPosts sampleStore { page := 3, limit := 1 } 0).pagination.hasNext = true ↔
      ({ page := 3, limit := 1 } : GetPostsOptions).page <
        (getPosts sampleStore { page := 3, limit := 1 } 0).pagination.totalPages) ∧
    ((getPosts sampleStore { page := 3, limit := 1 } 0).pagination.hasPrev = true ↔
      1 < ({ page := 3, limit := 1 } : GetPostsOptions).page) ∧
    ((getPosts sampleStore { page := 3, limit := 1 } 0).pagination.totalPages <
        ({ page := 3, limit := 1 } : GetPostsOptions).page →
      (getPosts sampleStore { page := 3, limit := 1 } 0).posts = []) :=
  pagination_correct sampleStore { page := 3, limit := 1 } 0 (by decide) (by decide)

/-! ### Aggregator: multi-source concatenation and deduplication -/

/-- The `seen`-set deduplication of `fetchAllPosts`, keeping the first
occurrence of each `reddit_id` (`seen` holds the ids already kept). -/
def dedupByRedditId : List Item → List String → List Item
  | [], _ => []
  | p :: ps, seen =>
    if p.reddit_id ∈ seen then dedupByRedditId ps seen
    else p :: dedupByRedditId ps (p.reddit_id :: seen)

/-- The concatenation order of `fetchAllPosts`:
`[...curated, ...blog, ...hn, ...gh, ...devto, ...redditResults.flat()]`. -/
def allPostsConcat (curated blog hn gh devto : List Item)
    (reddit : List (List Item)) : List Item :=
  curated ++ blog ++ hn ++ gh ++ devto ++ reddit.flatten

/-- The `uniquePosts` value computed by `fetchAllPosts`: the concatenation
deduplicated by `reddit_id`, first occurrence kept. Each adapter argument is
the list that adapter resolved with; an adapter that threw or timed out
resolved with `[]` (every adapter catches its own failures). -/
def fetchAllPostsResult (curated blog hn gh devto : List Item)
    (reddit : List (List Item)) : List Item :=
  dedupByRedditId (allPostsConcat curated blog hn gh devto reddit) []

/-- `fetchAllPosts` together with its store side effect: the store is
bulk-upserted only when `uniquePosts.length > 0`. -/
def fetchAllPostsStore (s : Store) (curated blog hn gh devto : List Item)
    (reddit : List (List Item)) (now : Nat) : Store × List Item :=
  let uniquePosts := fetchAllPostsResult curated blog hn gh devto reddit
  if 0 < uniquePosts.length then (upsertPosts s uniquePosts now, uniquePosts)
  else (s, uniquePosts)

theorem dedupByRedditId_not_seen :
    ∀ (l : List Item) (seen : List String) (r : Item),
      r ∈ dedupByRedditId l seen → r.reddit_id ∉ seen := by
  intro l
  induction l with
  | nil => intro seen r hr; exact absurd hr (List.not_mem_nil _)
  | cons p ps ih =>
    intro seen r hr
    by_cases hp : p.reddit_id ∈ seen
    · rw [dedupByRedditId, if_pos hp] at hr
      exact ih seen r hr
    · rw [dedupByRedditId, if_neg hp] at hr
      rcases List.mem_cons.mp hr with h1 | h1
      · subst h1
        exact hp
      · have h2 := ih (p.reddit_id :: seen) r h1
        intro hc
        exact h2 (List.mem_cons_of_mem _ hc)

theorem dedupByRedditId_sublist :
    ∀ (l : List Item) (seen : List String), (dedupByRedditId l seen).Sublist l := by
  intro l
  induction l with
  | nil => intro seen; exact List.Sublist.refl _
  | cons p ps ih =>
    intro seen
    by_cases hp : p.reddit_id ∈ seen
    · rw [dedupByRedditId, if_pos hp]
      exact List.Sublist.cons p (ih seen)
    · rw [dedupByRedditId, if_neg hp]
      exact List.Sublist.cons₂ p (ih (p.reddit_id :: seen))

theorem dedupByRedditId_find :
    ∀ (l : List Item) (seen : List String) (r : Item), r ∈ dedupByRedditId l seen →
      l.find? (fun p => p.reddit_id == r.reddit_id) = some r := by
  intro l
  induction l with
  | nil => intro seen r hr; exact absurd hr (List.not_mem_nil _)
  | cons p ps ih =>
    intro seen r hr
    by_cases hp : p.reddit_id ∈ seen
    · rw [dedupByRedditId, if_pos hp] at hr
      have hnot := dedupByRedditId_not_seen ps seen r hr
      have hne : ¬p.reddit_id = r.reddit_id := fun hc => hnot (hc ▸ hp)
      rw [List.find?_cons_of_neg _ (by simp [hne])]
      exact ih seen r hr
    · rw [dedupByRedditId, if_neg hp] at hr
      rcases List.mem_cons.mp hr with h1 | h1
      · subst h1
        exact List.find?_cons_of_pos _ (by simp)
      · have hnot := dedupByRedditId_not_seen ps (p.reddit_id :: seen) r h1
        have hne : ¬p.reddit_id = r.reddit_id := by
          intro hc
          exact hnot (by rw [← hc]; exact List.mem_cons_self _ _)
        rw [List.find?_cons_of_neg _ (by simp [hne])]
        exact ih (p.reddit_id :: seen) r h1

theorem dedupByRedditId_covers :
    ∀ (l : List Item) (seen : List String) (p : Item), p ∈ l →
      p.reddit_id ∈ seen ∨
      ∃ r ∈ dedupByRedditId l seen, r.reddit_id = p.reddit_id := by
  intro l
  induction l with
  | nil => intro seen p hp; exact absurd hp (List.not_mem_nil _)
  | cons q ps ih =>
    intro seen p hp
    rcases List.mem_cons.mp hp with h1 | h1
    · subst h1
      by_cases hq : p.reddit_id ∈ seen
      · exact Or.inl hq
      · right
        rw [dedupByRedditId, if_neg hq]
        exact ⟨p, List.mem_cons_self _ _, rfl⟩
    · by_cases hq : q.reddit_id ∈ seen
      · rw [dedupByRedditId, if_pos hq]
        exact ih seen p h1
      · rw [dedupByRedditId, if_neg hq]
        rcases ih (q.reddit_id :: seen) p h1 with hmem | ⟨r, hr, hrk⟩
        · rcases List.mem_cons.mp hmem with h2 | h2
          · right
            exact ⟨q, List.mem_cons_self _ _, h2.symm⟩
          · exact Or.inl h2
        · right
          exact ⟨r, List.mem_cons_of_mem _ hr, hrk⟩

theorem dedupByRedditId_nodup :
    ∀ (l : List Item) (seen : List String),
      ((dedupByRedditId l seen).map Item.reddit_id).Nodup := by
  intro l
  induction l with
  | nil => intro seen; simp [dedupByRedditId]
  | cons p ps ih =>
    intro seen
    by_cases hp : p.reddit_id ∈ seen
    · rw [dedupByRedditId, if_pos hp]
      exact ih seen
    · rw [dedupByRedditId, if_neg hp]
      rw [List.map_cons, List.nodup_cons]
      refine ⟨?_, ih (p.reddit_id :: seen)⟩
      intro hc
      obtain ⟨r, hr, hrk⟩ := List.mem_map.mp hc
      have := dedupByRedditId_not_seen ps (p.reddit_id :: seen) r hr
      exact this (by rw [hrk]; exact List.mem_cons_self _ _)

/-- C4: an aggregation cycle concatenates adapter results in the fixed
priority order (curated, then blog, then HN/GitHub/Dev.to, then Reddit
last) and deduplicates by `external_id` keeping the first occurrence in
that order: the result has pairwise-distinct ids, is a subsequence of the
concatenation, each kept record is the first occurrence of its id in the
concatenation, every id occurring in any successful adapter's output is
represented, and a cycle in which every adapter degraded to the empty list
still completes with the empty result. -/
theorem fetchAllPosts_cycle (curated blog hn gh devto : List Item)
    (reddit : List (List Item)) :
    ((fetchAllPostsResult curated blog hn gh devto reddit).map Item.reddit_id).Nodup ∧
    (fetchAllPostsResult curated blog hn gh devto reddit).Sublist
      (allPostsConcat curated blog hn gh devto reddit) ∧
    (∀ r ∈ fetchAllPostsResult curated blog hn gh devto reddit,
      (allPostsConcat curated blog hn gh devto reddit).find?
        (fun p => p.reddit_id == r.reddit_id) = some r) ∧
    (∀ p ∈ allPostsConcat curated blog hn gh devto reddit,
      ∃ r ∈ fetchAllPostsResult curated blog hn gh devto reddit,
        r.reddit_id = p.reddit_id) ∧
    ((∀ l ∈ reddit, l = []) →
      fetchAllPostsResult [] [] [] [] [] reddit = []) := by
  refine ⟨dedupByRedditId_nodup _ _, dedupByRedditId_sublist _ _, ?_, ?_, ?_⟩
  · intro r hr
    exact dedupByRedditId_find _ [] r hr
  · intro p hp
    rcases dedupByRedditId_covers _ [] p hp with hmem | h
    · exact absurd hmem (List.not_mem_nil _)
    · exact h
  · intro hall
    have hflat : allPostsConcat [] [] [] [] [] reddit = [] := by
      simp [allPostsConcat, List.flatten_eq_nil_iff]
      exact hall
    rw [fetchAllPostsResult, hflat]
    rfl

theorem fetchAllPosts_cycle_witness :
    ((fetchAllPostsResult [sampleItem "a" 1] [] [] [] []
      [[sampleItem "a" 2]]).map Item.reddit_id).Nodup ∧
    (fetchAllPostsResult [sampleItem "a" 1] [] [] [] []
      [[sampleItem "a" 2]]).Sublist
      (allPostsConcat [sampleItem "a" 1] [] [] [] [] [[sampleItem "a" 2]]) ∧
    (∀ r ∈ fetchAllPostsResult [sampleItem "a" 1] [] [] [] [] [[sampleItem "a" 2]],
      (allPostsConcat [sampleItem "a" 1] [] [] [] [] [[sampleItem "a" 2]]).find?
        (fun p => p.reddit_id == r.reddit_id) = some r) ∧
    (∀ p ∈ allPostsConcat [sampleItem "a" 1] [] [] [] [] [[sampleItem "a" 2]],
      ∃ r ∈ fetchAllPostsResult [sampleItem "a" 1] [] [] [] [] [[sampleItem "a" 2]],
        r.reddit_id = p.reddit_id) ∧
    ((∀ l ∈ [[sampleItem "a" 2]], l = []) →
      fetchAllPostsResult [] [] [] [] [] [[sampleItem "a" 2]] = []) :=
  fetchAllPosts_cycle [sampleItem "a" 1] [] [] [] [] [[sampleItem "a" 2]]

/-- C10: when the deduplicated cycle result is empty (for example every
adapter failed), `fetchAllPosts` performs no store write: `upsertPosts` is
not called and both the in-memory collection and the backing file are left
unchanged. -/
theorem fetchAllPosts_no_write (s : Store) (curated blog hn gh devto : List Item)
    (reddit : List (List Item)) (now : Nat)
    (h : fetchAllPostsResult curated blog hn gh devto reddit = []) :
    fetchAllPostsStore s curated blog hn gh devto reddit now = (s, []) := by
  simp only [fetchAllPostsStore, h]
  rfl

theorem fetchAllPosts_no_write_witness :
    fetchAllPostsStore emptyStore [] [] [] [] [] [[], []] 5 = (emptyStore, []) :=
  fetchAllPosts_no_write emptyStore [] [] [] [] [] [[], []] 5 rfl

/-! ### The Reddit adapter's relevance filter -/

/-- Raw Reddit API post (`child.data`): the fields `fetchSubredditPosts`
reads. `created_utc` is in seconds, multiplied by 1000 in the filter. -/
structure RedditPost where
  id : String
  title : String
  selftext : String
  author : String
  subreddit : String
  score : Int
  num_comments : Int
  created_utc : Nat
  permalink : String
deriving Repr, DecidableEq

/-- `ALL_KEYWORDS` of the aggregator server. -/
def ALL_KEYWORDS : List String :=
  ["claude", "claude code", "anthropic",
   "openclaw", "openclaw.ai", "clawhub",
   "moltbot", "molt bot", "moltbook",
   "clawdbot", "clawd bot", "clawd",
   "ai coding", "ai assistant", "ai agent", "mcp server"]

/-- `DEDICATED_SUBS` of the aggregator server. -/
def DEDICATED_SUBS : List String :=
  ["claude", "claudeai", "claudedev", "anthropicai", "claudecode"]

/-- The `hasKeyword` check inside the filter of `fetchSubredditPosts`: some
keyword is a case-insensitive substring of the title or of the body
(`post.selftext || ''`). -/
def hasKeyword (post : RedditPost) : Bool :=
  ALL_KEYWORDS.any (fun kw =>
    strIncludes (strToLower post.title) (strToLower kw) ||
    strIncludes (strToLower post.selftext) (strToLower kw))

/-- The `posts.filter(...)` predicate of `fetchSubredditPosts`: reject posts
older than 30 days; keep everything from a dedicated subreddit
(`DEDICATED_SUBS.has(subreddit.toLowerCase())`, tested on the fetched
subreddit name); otherwise keep exactly the keyword matches. The source
computes `hasKeyword` before the dedicated test but returns `true` for
dedicated subreddits without consulting it. -/
def keepPost (subreddit : String) (now : Nat) (post : RedditPost) : Bool :=
  let thirtyDaysAgo := now - 30 * 24 * 60 * 60 * 1000
  if post.created_utc * 1000 < thirtyDaysAgo then false
  else if strToLower subreddit ∈ DEDICATED_SUBS then true
  else hasKeyword post

theorem strIncludes_iff (hay pat : String) :
    strIncludes hay pat = true ↔ ∃ l r, hay.toList = l ++ pat.toList ++ r :=
  containsSeq_iff pat.toList hay.toList

/-- C7: for a post inside the 30-day window, a dedicated subreddit keeps it
regardless of keyword match; any other subreddit keeps it exactly when some
configured keyword occurs case-insensitively in its title or body. -/
theorem keepPost_spec (subreddit : String) (now : Nat) (post : RedditPost)
    (hwin : now - 30 * 24 * 60 * 60 * 1000 ≤ post.created_utc * 1000) :
    (strToLower subreddit ∈ DEDICATED_SUBS → keepPost subreddit now post = true) ∧
    (strToLower subreddit ∉ DEDICATED_SUBS →
      (keepPost subreddit now post = true ↔
        ∃ kw ∈ ALL_KEYWORDS,
          (∃ l r, (strToLower post.title).toList =
            l ++ (strToLower kw).toList ++ r) ∨
          (∃ l r, (strToLower post.selftext).toList =
            l ++ (strToLower kw).toList ++ r))) := by
  have hnot : ¬post.created_utc * 1000 < now - 30 * 24 * 60 * 60 * 1000 := by omega
  constructor
  · intro hd
    unfold keepPost
    rw [if_neg hnot, if_pos hd]
  · intro hd
    unfold keepPost
    rw [if_neg hnot, if_neg hd]
    unfold hasKeyword
    simp only [List.any_eq_true, Bool.or_eq_true, strIncludes_iff]

/-- A concrete raw Reddit post used by the witness. -/
def sampleRedditPost : RedditPost :=
  { id := "p1", title := "Claude tips", selftext := "", author := "a",
    subreddit := "ClaudeAI", score := 1, num_comments := 0,
    created_utc := 1000, permalink := "/r/ClaudeAI/p1" }

theorem keepPost_spec_witness :
    keepPost "ClaudeAI" 0 sampleRedditPost = true :=
  (keepPost_spec "ClaudeAI" 0 sampleRedditPost (by decide)).1 (by decide)

/-! ### The Reddit adapter's retry loop -/

/-- The retry loop of `fetchSubredditPosts`. `outcome a` is what attempt `a`
of the network fetch produced: `none` when `axios.get` or response handling
threw, `some items` on success (the filtered, normalized items). Returns
the result list, the backoff delays slept in milliseconds
(`Math.pow(3, attempt) * 1000`, slept only when another attempt follows),
and the number of attempts made. `fuel` is the number of loop iterations
remaining, `retries - attempt + 1` at every call. -/
def retryGo (outcome : Nat → Option (List Item)) (retries : Nat) :
    Nat → Nat → List Item × List Nat × Nat
  | _, 0 => ([], [], 0)
  | attempt, fuel + 1 =>
    match outcome attempt with
    | some posts => (posts, [], 1)
    | none =>
      if attempt < retries then
        let rest := retryGo outcome retries (attempt + 1) fuel
        (rest.1, 3 ^ attempt * 1000 :: rest.2.1, rest.2.2 + 1)
      else ([], [], 1)

/-- `fetchSubredditPosts(subreddit, token, retries = 3)`: the attempt loop
from `attempt = 1` with the default 3 retries. -/
def fetchSubredditRetry (outcome : Nat → Option (List Item)) :
    List Item × List Nat × Nat :=
  retryGo outcome 3 1 3

/-- C8: the subreddit fetch attempts a target at most 3 times, sleeping
`3^attempt` seconds (`3^attempt * 1000` ms) after each failed non-final
attempt, and after all 3 attempts fail it returns the empty list instead of
throwing past its boundary; an early success returns that attempt's
items. -/
theorem fetchSubredditRetry_spec (outcome : Nat → Option (List Item)) :
    (fetchSubredditRetry outcome).2.2 ≤ 3 ∧
    ((∀ a, outcome a = none) →
      fetchSubredditRetry outcome = ([], [3 ^ 1 * 1000, 3 ^ 2 * 1000], 3)) ∧
    (∀ v, outcome 1 = none → outcome 2 = some v →
      fetchSubredditRetry outcome = (v, [3 ^ 1 * 1000], 2)) ∧
    (∀ v, outcome 1 = some v → fetchSubredditRetry outcome = (v, [], 1)) := by
  refine ⟨?_, ?_, ?_, ?_⟩
  · show (retryGo outcome 3 1 3).2.2 ≤ 3
    cases h1 : outcome 1 with
    | some v => simp [retryGo, h1]
    | none =>
      cases h2 : outcome 2 with
      | some v => simp [retryGo, h1, h2]
      | none =>
        cases h3 : outcome 3 with
        | some v => simp [retryGo, h1, h2, h3]
        | none => simp [retryGo, h1, h2, h3]
  · intro h
    show retryGo outcome 3 1 3 = ([], [3 ^ 1 * 1000, 3 ^ 2 * 1000], 3)
    simp [retryGo, h 1, h 2, h 3]
  · intro v h1 h2
    show retryGo outcome 3 1 3 = (v, [3 ^ 1 * 1000], 2)
    simp [retryGo, h1, h2]
  · intro v h1
    show retryGo outcome 3 1 3 = (v, [], 1)
    simp [retryGo, h1]

/-- The oracle of a target for which every network attempt throws. -/
def allFailOutcome : Nat → Option (List Item) := fun _ => none

theorem fetchSubredditRetry_spec_witness :
    (fetchSubredditRetry allFailOutcome).2.2 ≤ 3 ∧
    ((∀ a, allFailOutcome a = none) →
      fetchSubredditRetry allFailOutcome = ([], [3 ^ 1 * 1000, 3 ^ 2 * 1000], 3)) ∧
    (∀ v, allFailOutcome 1 = none → allFailOutcome 2 = some v →
      fetchSubredditRetry allFailOutcome = (v, [3 ^ 1 * 1000], 2)) ∧
    (∀ v, allFailOutcome 1 = some v →
      fetchSubredditRetry allFailOutcome = (v, [], 1)) :=
  fetchSubredditRetry_spec allFailOutcome

end Aggregator
